import Mathlib

set_option maxRecDepth 4000

open Matrix

/-!
Verification of `src/nuslam/src/circle_fit_library.cpp` (namespace `circle_fit`).

The file embeds the two functions of that translation unit:

* `ClusterPoints` (lines 116-178): segments a 360-reading range scan into
  point clusters.  Range readings are `float` in the source; the embedding
  uses exact rationals, which agrees with real-number semantics on the
  concrete inputs evaluated here.  The loop stores, for each accepted
  bearing, the pair `(currAngle, ranges[currAngle])`; the Cartesian point the
  source pushes is `pointOf` applied to that pair (lines 146-148).
* `CircleFit` (lines 11-114): the hyperaccurate algebraic circle fit.  The
  calls into Armadillo (`svd`, `eig_sym`, `solve`) are oracles: the embedding
  takes their outputs as parameters, and theorems that need them valid
  assume the defining property (`IsSVD`).  `solve(Y, Astar)` is modelled as
  `Y⁻¹ *ᵥ Astar`, which is what `solve` returns when `Y` is invertible (it
  is in the branch that calls it, where every singular value is ≥ 1e-12).
-/

/- ## Scan clustering: `ClusterPoints`, lines 116-178 -/

/-- Line 121: `double threshold = 0.025;`. -/
def threshold : ℚ := 0.025

/-- Lines 125-168, the `while (angle < 359)` loop.  One fuel unit is spent per
iteration; `angle` increases by one in every branch of the body, so fuel 360
(used by `ClusterPoints` below) is never exhausted before the loop condition
fails.  State: `angle`, the open cluster `currCluster`, and the accumulated
`clusters`.  The body is translated branch for branch: an out-of-range reading
is skipped (lines 128-132); otherwise the gap `|ranges[currAngle] -
ranges[nextAngle]|` is compared with the threshold, a gap **greater** than the
threshold appends the point and keeps the cluster open (lines 151-155), and a
gap at most the threshold appends the point, closes the cluster and starts a
new one (lines 156-167).  Each element records `(currAngle,
ranges[currAngle])`; the source stores the Cartesian point `pointOf currAngle
(ranges currAngle)`. -/
def clusterLoop (ranges : ℕ → ℚ) (minRange maxRange : ℚ) :
    ℕ → ℕ → List (ℕ × ℚ) → List (List (ℕ × ℚ)) → List (List (ℕ × ℚ))
  | 0, _, _, clusters => clusters
  | fuel + 1, angle, currCluster, clusters =>
    if angle < 359 then
      if ranges angle > maxRange ∨ ranges angle < minRange then
        clusterLoop ranges minRange maxRange fuel (angle + 1) currCluster clusters
      else
        let currAngle := angle
        let nextAngle := if currAngle + 1 = 360 then 0 else currAngle + 1
        let currDist := ranges currAngle
        let nextDist := ranges nextAngle
        let point : ℕ × ℚ := (currAngle, ranges currAngle)
        if |currDist - nextDist| > threshold then
          clusterLoop ranges minRange maxRange fuel (angle + 1)
            (currCluster ++ [point]) clusters
        else
          clusterLoop ranges minRange maxRange fuel (angle + 1) []
            (clusters ++ [currCluster ++ [point]])
    else clusters

/-- Lines 170-177, the post-pass filter: `for (int i = 0; i < clusters.size();
++i) if (clusters[i].size() < 3) clusters.erase(clusters.begin() + i);`.
After an erase the loop still increments `i`, exactly as the source does.
One fuel unit per iteration; `i` grows by one each iteration while the list
never grows, so fuel `clusters.length + 1` is never exhausted. -/
def eraseSmall : ℕ → List (List (ℕ × ℚ)) → ℕ → List (List (ℕ × ℚ))
  | 0, clusters, _ => clusters
  | fuel + 1, clusters, i =>
    if i < clusters.length then
      if (clusters.getD i []).length < 3 then
        eraseSmall fuel (clusters.eraseIdx i) (i + 1)
      else
        eraseSmall fuel clusters (i + 1)
    else clusters

/-- Outcome of one call of `ClusterPoints`: the local variable `clusters` as it
stands when control reaches the closing brace (line 178), and the value handed
back to the caller.  The function is declared to return
`std::vector<std::vector<geometry_msgs::Point>>` but its body contains no
return statement, so control falls off the end and nothing is returned
(`returned := none`). -/
structure ClusterPointsRun where
  clusters : List (List (ℕ × ℚ))
  returned : Option (List (List (ℕ × ℚ)))

/-- Lines 116-178: the whole function body — the scan loop starting from
`angle = 0` with empty `currCluster` and `clusters`, then the size filter
starting from `i = 0` — followed by falling off the end without a return. -/
def ClusterPoints (ranges : ℕ → ℚ) (minRange maxRange : ℚ) : ClusterPointsRun :=
  let looped := clusterLoop ranges minRange maxRange 360 0 [] []
  { clusters := eraseSmall (looped.length + 1) looped 0
    returned := none }

/-- Lines 146-148: `point.x = ranges[currAngle] * cos(currAngle); point.y =
ranges[currAngle] * sin(currAngle);`.  The bearing `currAngle` is passed to
`cos`/`sin` as is — an integer number of degrees used as radians. -/
noncomputable def pointOf (currAngle : ℕ) (r : ℝ) : ℝ × ℝ :=
  (r * Real.cos currAngle, r * Real.sin currAngle)

/-- Whether a list of bearing indices is a run of consecutive integers. -/
def consecutiveIdx : List ℕ → Bool
  | [] => true
  | [_] => true
  | a :: b :: rest => (b = a + 1) && consecutiveIdx (b :: rest)

/-- A cluster whose recorded bearing indices are consecutive integers. -/
def indicesConsecutive (c : List (ℕ × ℚ)) : Prop :=
  consecutiveIdx (c.map Prod.fst) = true

instance (c : List (ℕ × ℚ)) : Decidable (indicesConsecutive c) :=
  inferInstanceAs (Decidable (consecutiveIdx (c.map Prod.fst) = true))

/-- Synthetic scan for the split/merge test of the spec: readings 0-9 equal
1.0 (all gaps 0 < 0.025), readings from 10 on equal 2.0 (gap 1.0 > 0.025
between indices 9 and 10). -/
def ex2 : ℕ → ℚ := fun i => if i ≤ 9 then 1 else 2

/-- Synthetic scan: four equal in-range readings at indices 0-3, everything
else far out of range. -/
def ex4 : ℕ → ℚ := fun i => if i < 4 then 1 else 100

/-- Synthetic scan: valid readings at bearings 0, 2, 3 and 4 with the reading
at bearing 1 out of range, chosen so that the loop keeps one cluster open
across the skipped bearing. -/
def ex10 : ℕ → ℚ := fun i =>
  if i = 0 then 1 else if i = 2 then 1
  else if i = 3 then 11/10 else if i = 4 then 11/10 else 10

/- ## Circle fitting: `CircleFit`, lines 11-114 -/

/-- Lines 15-22: `x_hat`, accumulated as `x_hat += point.x / n` over the
cluster. -/
noncomputable def centroidX {n : ℕ} (data : Fin n → ℝ × ℝ) : ℝ :=
  ∑ j, (data j).1 / n

/-- Lines 15-22: `y_hat`. -/
noncomputable def centroidY {n : ℕ} (data : Fin n → ℝ × ℝ) : ℝ :=
  ∑ j, (data j).2 / n

/-- Lines 25-29: the data shifted so the centroid is at the origin. -/
noncomputable def centered {n : ℕ} (data : Fin n → ℝ × ℝ) : Fin n → ℝ × ℝ :=
  fun j => ((data j).1 - centroidX data, (data j).2 - centroidY data)

/-- Lines 32-38: the data matrix `Z`, one row `[x² + y², x, y, 1]` per
centered point. -/
noncomputable def Zmat {n : ℕ} (data : Fin n → ℝ × ℝ) :
    Matrix (Fin n) (Fin 4) ℝ :=
  Matrix.of fun j k =>
    if k = 0 then (centered data j).1 ^ 2 + (centered data j).2 ^ 2
    else if k = 1 then (centered data j).1
    else if k = 2 then (centered data j).2
    else 1

/-- Line 41: `z_bar`, the mean of column 0 of `Z`. -/
noncomputable def zBar {n : ℕ} (data : Fin n → ℝ × ℝ) : ℝ :=
  (∑ j, Zmat data j 0) / n

/-- Lines 44-48: the constraint matrix `H` — identity, then `H(0,0) = 2*z_bar`,
`H(0,3) = 2`, `H(3,0) = 2`, `H(3,3) = 0`. -/
noncomputable def Hmat (z : ℝ) : Matrix (Fin 4) (Fin 4) ℝ :=
  !![2 * z, 0, 0, 2; 0, 1, 0, 0; 0, 0, 1, 0; 2, 0, 0, 0]

/-- Lines 51-55: the matrix the source calls `Hinv` ("compute H^-1") —
identity, then `Hinv(0,0) = 0`, `Hinv(0,3) = 0.5`, `Hinv(3,0) = 0.5`,
`Hinv(3,3) = -2*z_bar`. -/
noncomputable def Hinv (z : ℝ) : Matrix (Fin 4) (Fin 4) ℝ :=
  !![0, 0, 0, 1/2; 0, 1, 0, 0; 0, 0, 1, 0; 1/2, 0, 0, -2 * z]

/-- Number of singular values `arma::svd(U, s, V, X)` produces for an
`rows × cols` matrix `X`: `min rows cols` (Armadillo's documented behaviour).
`CircleFit` reads `s(3)`, which is in bounds only when `3 < sCount n 4`,
i.e. only for clusters of at least 4 points; for a 3-point cluster the
bounds-checked access fails at run time. -/
def sCount (rows cols : ℕ) : ℕ := min rows cols

/-- The `n × 4` rectangular diagonal matrix `diag(s)` of a singular value
decomposition `Z = U · diag(s) · Vᵀ` (for `n ≥ 4`, when `s` has 4 entries). -/
def sigmaMat (n : ℕ) (s : Fin 4 → ℝ) : Matrix (Fin n) (Fin 4) ℝ :=
  Matrix.of fun i j => if (i : ℕ) = (j : ℕ) then s j else 0

/-- Defining property of the oracle for line 61, `svd(U, s, V, Z)`: `U` and
`V` orthogonal, the singular values nonnegative and in decreasing order, and
`Z = U · diag(s) · Vᵀ`. -/
def IsSVD {n : ℕ} (Z : Matrix (Fin n) (Fin 4) ℝ) (U : Matrix (Fin n) (Fin n) ℝ)
    (s : Fin 4 → ℝ) (V : Matrix (Fin 4) (Fin 4) ℝ) : Prop :=
  Uᵀ * U = 1 ∧ Vᵀ * V = 1 ∧ V * Vᵀ = 1 ∧
  (∀ i j : Fin 4, i ≤ j → s j ≤ s i) ∧ (∀ i : Fin 4, 0 ≤ s i) ∧
  Z = U * sigmaMat n s * Vᵀ

/-- Lines 78-88, the eigenvalue selection loop: `eig_index = 0`, `eig_max =
INT_MAX` (2147483647); for each `i`, if `eigval(i) > 0 && eigval(i) < eig_max`
then `eig_index = i; eig_max = eigval(i)`.  One fuel unit per iteration;
`selectEig` below supplies fuel 4, the loop's trip count. -/
def selectLoop {α : Type} [LinearOrderedField α] (eigval : Fin 4 → α) :
    ℕ → ℕ → Fin 4 → α → Fin 4 × α
  | 0, _, eigIndex, eigMax => (eigIndex, eigMax)
  | fuel + 1, i, eigIndex, eigMax =>
    if h : i < 4 then
      if 0 < eigval ⟨i, h⟩ ∧ eigval ⟨i, h⟩ < eigMax then
        selectLoop eigval fuel (i + 1) ⟨i, h⟩ (eigval ⟨i, h⟩)
      else
        selectLoop eigval fuel (i + 1) eigIndex eigMax
    else (eigIndex, eigMax)

/-- The index `eig_index` the loop of lines 78-88 ends with. -/
def selectEig {α : Type} [LinearOrderedField α] (eigval : Fin 4 → α) : Fin 4 :=
  (selectLoop eigval 4 0 0 2147483647).1

/-- Invariant of the selection loop after scanning eigenvalue indices below
`i`: either nothing positive and below the sentinel has been seen and the
state is untouched, or `eigMax` is the least positive eigenvalue seen, held
at its first occurrence `eigIndex`. -/
def SelInv {α : Type} [LinearOrderedField α] (eigval : Fin 4 → α) (i : ℕ)
    (eigIndex : Fin 4) (eigMax : α) : Prop :=
  (eigMax = 2147483647 ∧ eigIndex = 0 ∧
    ∀ j : Fin 4, (j : ℕ) < i → ¬(0 < eigval j ∧ eigval j < 2147483647)) ∨
  (0 < eigval eigIndex ∧ eigval eigIndex = eigMax ∧ eigMax < 2147483647 ∧
    (eigIndex : ℕ) < i ∧
    (∀ j : Fin 4, (j : ℕ) < i → 0 < eigval j → eigMax ≤ eigval j) ∧
    (∀ j : Fin 4, (j : ℕ) < (eigIndex : ℕ) → 0 < eigval j → eigMax < eigval j))

/-- Line 71: `Y = V * diagmat(s) * V.t()`. -/
noncomputable def Ymat (s : Fin 4 → ℝ) (V : Matrix (Fin 4) (Fin 4) ℝ) :
    Matrix (Fin 4) (Fin 4) ℝ :=
  V * Matrix.diagonal s * Vᵀ

/-- Lines 63-91: the parameter vector `A`.  If `s(3) < 1e-12`, `A` is column 3
of `V`; otherwise `Astar` is the eigenvector column selected from the
`eig_sym` oracle output and `A = solve(Y, Astar)`, modelled as `Y⁻¹ ·
Astar`. -/
noncomputable def circleA (s : Fin 4 → ℝ) (V : Matrix (Fin 4) (Fin 4) ℝ)
    (eigval : Fin 4 → ℝ) (eigvec : Matrix (Fin 4) (Fin 4) ℝ) : Fin 4 → ℝ :=
  if s 3 < 1e-12 then (fun i => V i 3)
  else (Ymat s V)⁻¹ *ᵥ (fun i => eigvec i (selectEig eigval))

/-- The fields of the returned `visualization_msgs::Marker` that carry the
fit: `pose.position.x`, `pose.position.y` and the radius `scale.x`
(lines 98-113; `scale.y` equals `scale.x`).  The remaining marker fields are
presentation constants. -/
structure Marker where
  x : ℝ
  y : ℝ
  radius : ℝ

/-- Lines 11-114: the whole fit, given the outputs of the `svd` and `eig_sym`
oracles.  `a = -A(1)/(2 A(0))`, `b = -A(2)/(2 A(0))`,
`R² = (A(1)² + A(2)² - 4 A(0) A(3)) / (4 A(0)²)`, and the marker carries
`(a + x_hat, b + y_hat)` and `sqrt(R²)`.  The function returns a marker
unconditionally: no branch examines `A(0)` or the sign of `R²`, and the
return type has no failure variant. -/
noncomputable def CircleFit {n : ℕ} (data : Fin n → ℝ × ℝ) (s : Fin 4 → ℝ)
    (V : Matrix (Fin 4) (Fin 4) ℝ) (eigval : Fin 4 → ℝ)
    (eigvec : Matrix (Fin 4) (Fin 4) ℝ) : Marker :=
  let A := circleA s V eigval eigvec
  let a := -A 1 / (2 * A 0)
  let b := -A 2 / (2 * A 0)
  let R2 := (A 1 ^ 2 + A 2 ^ 2 - 4 * A 0 * A 3) / (4 * A 0 ^ 2)
  { x := a + centroidX data, y := b + centroidY data, radius := Real.sqrt R2 }

/-- The parameter vector of the circle with centre `(a, b)` and radius `r` in
the quadratic form `A₀(x² + y²) + A₁x + A₂y + A₃ = 0`, normalised to
`A₀ = 1`: every point of that circle puts a zero row in `Z ·ᵥ` this vector. -/
noncomputable def circleVec (a b r : ℝ) : Fin 4 → ℝ :=
  ![1, -2 * a, -2 * b, a ^ 2 + b ^ 2 - r ^ 2]

/-- Four collinear points: a degenerate cluster for the fit. -/
noncomputable def dataC5 : Fin 4 → ℝ × ℝ := ![(0, 0), (1, 0), (2, 0), (3, 0)]

/-- Four points on the circle of centre `(5, 7)` and radius 1. -/
noncomputable def data8 : Fin 4 → ℝ × ℝ := ![(6, 7), (4, 7), (5, 8), (5, 6)]

/-- Singular values of `Zmat data8`. -/
noncomputable def s8 : Fin 4 → ℝ :=
  ![2 * Real.sqrt 2, Real.sqrt 2, Real.sqrt 2, 0]

/-- Right singular vectors of `Zmat data8`. -/
noncomputable def V8 : Matrix (Fin 4) (Fin 4) ℝ :=
  !![Real.sqrt 2 / 2, 0, 0, Real.sqrt 2 / 2;
     0, 1, 0, 0;
     0, 0, 1, 0;
     Real.sqrt 2 / 2, 0, 0, -(Real.sqrt 2 / 2)]

/-- Left singular vectors of `Zmat data8`. -/
noncomputable def U8 : Matrix (Fin 4) (Fin 4) ℝ :=
  !![1/2, Real.sqrt 2 / 2, 0, 1/2;
     1/2, -(Real.sqrt 2 / 2), 0, 1/2;
     1/2, 0, Real.sqrt 2 / 2, -(1/2);
     1/2, 0, -(Real.sqrt 2 / 2), -(1/2)]

/-- Example eigenvalues for the selection loop: least positive entry at
index 2. -/
def eigvalEx : Fin 4 → ℚ := ![2, -1, 1, 3]

/-- Eigenvalues whose positive entries all reach the `INT_MAX` sentinel. -/
def eigvalBad : Fin 4 → ℚ := ![-1, 2147483647, 2147483648, 2147483649]

/-- Three points on the unit circle about the origin: a minimal legal cluster
per the spec, but one for which `svd` produces only `min(3, 4) = 3` singular
values. -/
noncomputable def dataC8three : Fin 3 → ℝ × ℝ := ![(1, 0), (-1, 0), (0, 1)]

/-- A 3-point cluster for the translation claim: the smallest size the claim
admits, and one for which `svd` produces only `min(3, 4) = 3` singular
values. -/
noncomputable def dataC9 : Fin 3 → ℝ × ℝ := ![(0, 0), (1, 0), (0, 1)]

/- ## Theorems about the clustering stage -/

unseal Rat.add Rat.sub Rat.mul Rat.inv Rat.ofScientific in
/-- C1: for every input, `ClusterPoints` reaches the end of its body without
executing a return statement: the computed cluster sequence is never handed
back to the caller (the second conjunct shows the dropped value is not always
trivial). -/
theorem clusterPoints_never_returns :
    (∀ (ranges : ℕ → ℚ) (minRange maxRange : ℚ),
      (ClusterPoints ranges minRange maxRange).returned = none) ∧
    (ClusterPoints ex4 (1/2) (3/2)).clusters ≠ [] :=
  ⟨fun _ _ _ => rfl, by decide⟩

unseal Rat.add Rat.sub Rat.mul Rat.inv Rat.ofScientific in
/-- C2 (code_bug evidence): on the spec's synthetic scan `ex2` (readings 0-9
equal, reading 10 differing by 1.0 > 0.025) the loop produces `[(0, 1)]` as
its first cluster — index 0 is closed off alone because its gap is *small* —
and groups indices 9 and 10 together because their gap is *large*: the
comparison branches are swapped relative to the spec (and to the source's own
comments), so indices 0-10 do not form one cluster. -/
theorem clusterPoints_small_gap_closes_cluster :
    (clusterLoop ex2 (1/2) 3 360 0 [] []).head? = some [(0, 1)] ∧
    (clusterLoop ex2 (1/2) 3 360 0 [] [])[9]? = some [(9, 1), (10, 2)] := by
  decide

unseal Rat.add Rat.sub Rat.mul Rat.inv Rat.ofScientific in
/-- C4 (code_bug evidence): on the scan `ex4` the loop builds three
single-point clusters (indices 0, 1, 2), and the erase-while-iterating filter
of lines 170-177 removes only the first and third of them: the cluster
`[(1, 1)]`, with 1 < 3 points, survives the post-pass filter. -/
theorem clusterPoints_undersized_cluster_survives :
    (ClusterPoints ex4 (1/2) (3/2)).clusters = [[(1, 1)]] ∧
    ([(((1 : ℕ), (1 : ℚ)))] : List (ℕ × ℚ)).length < 3 := by
  decide

unseal Rat.add Rat.sub Rat.mul Rat.inv Rat.ofScientific in
/-- C10 counterexample: on the scan `ex10` (bearing 1 out of range between
valid bearings 0 and 2) `ClusterPoints` emits the single surviving cluster
`[(0, 1), (2, 1), (3, 11/10)]`, whose bearing indices 0, 2, 3 are not
consecutive: a cluster can span two angular arcs separated by an out-of-range
reading. -/
theorem clusterPoints_noncontiguous_counterexample :
    (ClusterPoints ex10 (1/2) (3/2)).clusters = [[(0, 1), (2, 1), (3, 11/10)]] ∧
    ¬ indicesConsecutive [(0, 1), (2, 1), (3, 11/10)] := by
  decide

/-- C3 (code_bug evidence): at bearing 90 with range 1 the point the source
builds has x-coordinate `cos 90` — 90 *radians* — which is negative, while
the radian-converted value the spec requires, `cos (90·π/180) = cos (π/2)`,
is zero. -/
theorem clusterPoints_bearing_in_degrees :
    (pointOf 90 1).1 < 0 ∧ Real.cos (90 * Real.pi / 180) = 0 := by
  constructor
  · have hpt : (pointOf 90 1).1 = Real.cos 90 := by
      simp [pointOf]
    rw [hpt]
    have h90 : (90 : ℝ) = (90 - 28 * Real.pi) + (14 : ℤ) * (2 * Real.pi) := by
      push_cast; ring
    rw [h90, Real.cos_add_int_mul_two_pi]
    have hlt := Real.pi_lt_d6
    have hgt := Real.pi_gt_d6
    apply Real.cos_neg_of_pi_div_two_lt_of_lt
    · linarith
    · linarith
  · rw [show (90 : ℝ) * Real.pi / 180 = Real.pi / 2 by ring]
    exact Real.cos_pi_div_two

/-- Membership in the output of the size filter implies membership in its
input: `eraseSmall` only removes clusters. -/
theorem mem_eraseSmall {c : List (ℕ × ℚ)} :
    ∀ (fuel : ℕ) (clusters : List (List (ℕ × ℚ))) (i : ℕ),
      c ∈ eraseSmall fuel clusters i → c ∈ clusters := by
  intro fuel
  induction fuel with
  | zero => intro clusters i h; simpa [eraseSmall] using h
  | succ fuel ih =>
    intro clusters i h
    simp only [eraseSmall] at h
    split at h
    · split at h
      · exact List.eraseIdx_subset _ _ (ih _ _ h)
      · exact ih _ _ h
    · exact h

/-- Appending a strictly larger index keeps the index chain strictly
increasing. -/
theorem chain_append_lt {l : List (ℕ × ℚ)} {k : ℕ} {q : ℚ}
    (hl : (l.map Prod.fst).Chain' (· < ·)) (hb : ∀ p ∈ l, p.1 < k) :
    ((l ++ [(k, q)]).map Prod.fst).Chain' (· < ·) := by
  rw [List.map_append]
  refine List.Chain'.append hl (by simp) ?_
  intro x hx y hy
  simp only [List.map_cons, List.map_nil, List.head?_cons, Option.mem_def,
    Option.some.injEq] at hy
  subst hy
  have hx' : x ∈ l.map Prod.fst := List.mem_of_mem_getLast? hx
  obtain ⟨p, hp, rfl⟩ := List.mem_map.mp hx'
  exact hb p hp

/-- Loop invariant: if every finished cluster and the open cluster have
strictly increasing indices and every index in the open cluster is below the
current angle, every cluster the loop eventually emits has strictly
increasing indices. -/
theorem clusterLoop_chain (ranges : ℕ → ℚ) (minRange maxRange : ℚ) :
    ∀ (fuel angle : ℕ) (currCluster : List (ℕ × ℚ))
      (clusters : List (List (ℕ × ℚ))),
      (∀ c ∈ clusters, (c.map Prod.fst).Chain' (· < ·)) →
      ((currCluster.map Prod.fst).Chain' (· < ·)) →
      (∀ p ∈ currCluster, p.1 < angle) →
      ∀ c ∈ clusterLoop ranges minRange maxRange fuel angle currCluster clusters,
        (c.map Prod.fst).Chain' (· < ·) := by
  intro fuel
  induction fuel with
  | zero =>
    intro angle curr clusters hcl _ _ c hc
    exact hcl c (by simpa [clusterLoop] using hc)
  | succ fuel ih =>
    intro angle curr clusters hcl hcurr hbound c hc
    simp only [clusterLoop] at hc
    by_cases h359 : angle < 359
    · rw [if_pos h359] at hc
      by_cases hskip : ranges angle > maxRange ∨ ranges angle < minRange
      · rw [if_pos hskip] at hc
        exact ih (angle + 1) curr clusters hcl hcurr
          (fun p hp => Nat.lt_succ_of_lt (hbound p hp)) c hc
      · rw [if_neg hskip,
          show (if angle + 1 = 360 then 0 else angle + 1) = angle + 1 from
            if_neg (by omega)] at hc
        by_cases hgap : |ranges angle - ranges (angle + 1)| > threshold
        · rw [if_pos hgap] at hc
          refine ih (angle + 1) _ clusters hcl
            (chain_append_lt hcurr hbound) ?_ c hc
          intro p hp
          rcases List.mem_append.mp hp with h | h
          · exact Nat.lt_succ_of_lt (hbound p h)
          · simp only [List.mem_singleton] at h
            subst h
            exact Nat.lt_succ_self angle
        · rw [if_neg hgap] at hc
          refine ih (angle + 1) [] _ ?_ (by simp) (by simp) c hc
          intro c' hc'
          rcases List.mem_append.mp hc' with h | h
          · exact hcl c' h
          · simp only [List.mem_singleton] at h
            subst h
            exact chain_append_lt hcurr hbound
    · rw [if_neg h359] at hc
      exact hcl c hc

/-- C10 amended: within every cluster `ClusterPoints` emits, the recorded
bearing indices are strictly increasing (clusters follow angular scan order),
though not necessarily consecutive. -/
theorem clusterPoints_indices_increasing (ranges : ℕ → ℚ)
    (minRange maxRange : ℚ) (c : List (ℕ × ℚ))
    (hc : c ∈ (ClusterPoints ranges minRange maxRange).clusters) :
    (c.map Prod.fst).Chain' (· < ·) := by
  have h1 : c ∈ clusterLoop ranges minRange maxRange 360 0 [] [] := by
    simp only [ClusterPoints] at hc
    exact mem_eraseSmall _ _ _ hc
  exact clusterLoop_chain ranges minRange maxRange 360 0 [] []
    (by simp) (by simp) (by simp) c h1

unseal Rat.add Rat.sub Rat.mul Rat.inv Rat.ofScientific in
/-- Witness for the amended C10 statement, at the concrete scan `ex10`. -/
theorem clusterPoints_indices_increasing_witness :
    (([((0 : ℕ), (1 : ℚ)), (2, 1), (3, 11/10)].map Prod.fst).Chain' (· < ·)) :=
  clusterPoints_indices_increasing ex10 (1/2) (3/2) _ (by decide)

/- ## Theorems about the circle fit -/

/-- C6 (code_bug evidence): at `z_bar = 1` (e.g. any cluster whose centered
points have mean squared distance 1) the matrices of lines 44-55 are not
inverses: entry (0,3) of `H * Hinv` is `-3` where the identity has `0`.  The
hyperaccurate-fit constraint matrix has `H(0,0) = 8 * z_bar`; the coded `Hinv`
is the inverse of that matrix, not of the coded `H`, whose `H(0,0)` is
`2 * z_bar`. -/
theorem Hmat_Hinv_not_inverse :
    (Hmat 1 * Hinv 1) 0 3 = -3 ∧ ((1 : Matrix (Fin 4) (Fin 4) ℝ) 0 3 = 0) ∧
    Hmat 1 * Hinv 1 ≠ 1 := by
  have h1 : (Hmat 1 * Hinv 1) 0 3 = -3 := by
    simp [Hmat, Hinv, Matrix.mul_apply, Fin.sum_univ_four]
    norm_num
  have h2 : (1 : Matrix (Fin 4) (Fin 4) ℝ) 0 3 = 0 :=
    Matrix.one_apply_ne (by decide)
  refine ⟨h1, h2, fun h => ?_⟩
  rw [h, h2] at h1
  norm_num at h1

/-- C5 (code_bug evidence): for the four collinear points `dataC5` every null
vector of the data matrix has leading coefficient zero.  The degenerate
branch — taken here, `Z` being rank deficient — sets `A` to a unit null
vector of `Z`, so `A(0) = 0` and line 94 computes `-A(1) / (2 * A(0))`, a
division by zero; `CircleFit` checks neither `A(0)` nor the sign of `R²`, and
its return type has no failure variant, so no fit failure is reported. -/
theorem circleFit_collinear_null_vector (w : Fin 4 → ℝ)
    (hw : Zmat dataC5 *ᵥ w = 0) : w 0 = 0 := by
  have h0 := congrFun hw 0
  have h1 := congrFun hw 1
  have h2 := congrFun hw 2
  have h3 := congrFun hw 3
  simp [Zmat, Matrix.mulVec, dotProduct, Fin.sum_univ_four, centered,
    centroidX, centroidY, dataC5] at h0 h1 h2 h3
  norm_num at h0 h1 h2 h3
  linarith

/-- Witness for C5's theorem: the concrete null vector `(0, 0, 1, 0)` of
`Zmat dataC5`. -/
theorem circleFit_collinear_null_vector_witness :
    (![0, 0, 1, 0] : Fin 4 → ℝ) 0 = 0 :=
  circleFit_collinear_null_vector ![0, 0, 1, 0] (by
    funext j
    fin_cases j <;>
      simp [Zmat, Matrix.mulVec, dotProduct, Fin.sum_univ_four, centered,
        centroidX, centroidY, dataC5])

/-- The selection loop of lines 78-88 carries `SelInv` from index `i` to
index 4 when given at least `4 - i` fuel. -/
theorem selectLoop_inv {α : Type} [LinearOrderedField α] (eigval : Fin 4 → α) :
    ∀ (fuel i : ℕ) (eigIndex : Fin 4) (eigMax : α), 4 ≤ fuel + i → i ≤ 4 →
      SelInv eigval i eigIndex eigMax →
      SelInv eigval 4 (selectLoop eigval fuel i eigIndex eigMax).1
        (selectLoop eigval fuel i eigIndex eigMax).2 := by
  intro fuel
  induction fuel with
  | zero =>
    intro i idx mx hf hi hinv
    have h4 : i = 4 := by omega
    subst h4
    simpa [selectLoop] using hinv
  | succ fuel ih =>
    intro i idx mx hf hi hinv
    by_cases h4 : i < 4
    · simp only [selectLoop]
      rw [dif_pos h4]
      have hmxle : mx ≤ 2147483647 := by
        rcases hinv with ⟨h, _⟩ | ⟨_, _, h, _⟩
        · rw [h]
        · exact le_of_lt h
      by_cases hc : 0 < eigval ⟨i, h4⟩ ∧ eigval ⟨i, h4⟩ < mx
      · rw [if_pos hc]
        apply ih (i + 1) ⟨i, h4⟩ _ (by omega) (by omega)
        right
        refine ⟨hc.1, rfl, lt_of_lt_of_le hc.2 hmxle, by simp, ?_, ?_⟩
        · intro j hj hpos
          rcases Nat.lt_succ_iff_lt_or_eq.mp hj with hj' | hj'
          · rcases hinv with ⟨hmx, hidx, hnone⟩ | ⟨hp0, heq, hlt, hil, hle, hfst⟩
            · have hno := hnone j hj'
              push_neg at hno
              have hge := hno hpos
              have : eigval ⟨i, h4⟩ < eigval j := by
                calc eigval ⟨i, h4⟩ < mx := hc.2
                  _ = 2147483647 := hmx
                  _ ≤ eigval j := hge
              exact le_of_lt this
            · have := hle j hj' hpos
              have h5 := hc.2
              rw [heq] at *
              linarith
          · have hje : j = ⟨i, h4⟩ := Fin.ext hj'
            rw [hje]
        · intro j hj hpos
          simp only [] at hj
          rcases hinv with ⟨hmx, hidx, hnone⟩ | ⟨hp0, heq, hlt, hil, hle, hfst⟩
          · have hno := hnone j (by omega)
            push_neg at hno
            have hge := hno hpos
            calc eigval ⟨i, h4⟩ < mx := hc.2
              _ = 2147483647 := hmx
              _ ≤ eigval j := hge
          · have := hle j (by omega) hpos
            have h5 := hc.2
            linarith
      · rw [if_neg hc]
        apply ih (i + 1) idx mx (by omega) (by omega)
        push_neg at hc
        rcases hinv with ⟨hmx, hidx, hnone⟩ | ⟨hp0, heq, hlt, hil, hle, hfst⟩
        · left
          refine ⟨hmx, hidx, ?_⟩
          intro j hj
          rcases Nat.lt_succ_iff_lt_or_eq.mp hj with hj' | hj'
          · exact hnone j hj'
          · have hje : j = ⟨i, h4⟩ := Fin.ext hj'
            rintro ⟨hp, hltm⟩
            rw [hje] at hp hltm
            have := hc hp
            rw [hmx] at this
            linarith
        · right
          refine ⟨hp0, heq, hlt, by omega, ?_, hfst⟩
          intro j hj hpos
          rcases Nat.lt_succ_iff_lt_or_eq.mp hj with hj' | hj'
          · exact hle j hj' hpos
          · have hje : j = ⟨i, h4⟩ := Fin.ext hj'
            rw [hje]
            rw [hje] at hpos
            exact hc hpos
    · have h4' : i = 4 := by omega
      subst h4'
      simp only [selectLoop]
      rw [dif_neg h4]
      exact hinv

/-- C7 amended: whenever some eigenvalue of `Q` is strictly positive and
below the `INT_MAX` (2147483647) sentinel, the loop of lines 78-88
deterministically selects an index carrying a strictly positive eigenvalue
that is least among all strictly positive eigenvalues, and every earlier
index with a positive eigenvalue carries a strictly larger one (first
occurrence wins ties); `A` is then `solve(Y, eigvec.col(eig_index))` by
definition of `circleA`.  Without such an eigenvalue the initial index 0 is
kept, which may carry a nonpositive eigenvalue (see the counterexample). -/
theorem selectEig_smallest_positive {α : Type} [LinearOrderedField α]
    (eigval : Fin 4 → α)
    (h : ∃ i : Fin 4, 0 < eigval i ∧ eigval i < 2147483647) :
    0 < eigval (selectEig eigval) ∧
    (∀ j : Fin 4, 0 < eigval j → eigval (selectEig eigval) ≤ eigval j) ∧
    (∀ j : Fin 4, (j : ℕ) < (selectEig eigval : ℕ) → 0 < eigval j →
      eigval (selectEig eigval) < eigval j) := by
  have hinv := selectLoop_inv eigval 4 0 0 2147483647 (by omega) (by omega)
    (Or.inl ⟨rfl, rfl, fun j hj => absurd hj (by omega)⟩)
  rcases hinv with ⟨hmx, hidx, hnone⟩ | ⟨hpos, heq, hlt, _, hle, hfst⟩
  · obtain ⟨i, hi⟩ := h
    exact absurd hi (hnone i i.isLt)
  · refine ⟨hpos, ?_, ?_⟩
    · intro j hj
      have := hle j j.isLt hj
      rw [← heq] at this
      exact this
    · intro j hjlt hj
      have := hfst j hjlt hj
      rw [← heq] at this
      exact this

/-- Witness for the amended C7 statement: eigenvalues `(2, -1, 1, 3)`; the
loop selects index 2, whose eigenvalue 1 is the least positive one. -/
theorem selectEig_smallest_positive_witness :
    0 < eigvalEx (selectEig eigvalEx) ∧
    (∀ j : Fin 4, 0 < eigvalEx j → eigvalEx (selectEig eigvalEx) ≤ eigvalEx j) ∧
    (∀ j : Fin 4, (j : ℕ) < (selectEig eigvalEx : ℕ) → 0 < eigvalEx j →
      eigvalEx (selectEig eigvalEx) < eigvalEx j) :=
  selectEig_smallest_positive eigvalEx ⟨2, by decide⟩

set_option maxHeartbeats 1000000 in
/-- C7 counterexample: with eigenvalues `(-1, 2147483647, 2147483648,
2147483649)` every strictly positive eigenvalue fails the `< INT_MAX`
sentinel test, the loop never updates its state, and the returned index 0
carries the eigenvalue `-1 ≤ 0`: a nonpositive eigenvalue is selected. -/
theorem selectEig_nonpositive_counterexample :
    selectEig eigvalBad = 0 ∧ eigvalBad 0 ≤ 0 := by
  decide

/-- C9 amended: for clusters of at least 4 points — the sizes for which the
`s(3)` read at line 66 is in bounds and a fit is produced at all (see the
C9 counterexample for 3-point clusters) — translating every cluster point by
a fixed vector `(tx, ty)` leaves the data matrix `Z` unchanged — so any
valid `svd`/`eig_sym` oracle output for one run is valid for the other —
and, for the same oracle outputs, translates the fitted centre by exactly
`(tx, ty)` while leaving the radius unchanged. -/
theorem circleFit_translation_equivariant {n : ℕ} (data : Fin n → ℝ × ℝ)
    (tx ty : ℝ) (s : Fin 4 → ℝ) (V : Matrix (Fin 4) (Fin 4) ℝ)
    (eigval : Fin 4 → ℝ) (eigvec : Matrix (Fin 4) (Fin 4) ℝ) (hn : 4 ≤ n) :
    Zmat (fun j => ((data j).1 + tx, (data j).2 + ty)) = Zmat data ∧
    CircleFit (fun j => ((data j).1 + tx, (data j).2 + ty)) s V eigval eigvec =
      { x := (CircleFit data s V eigval eigvec).x + tx
        y := (CircleFit data s V eigval eigvec).y + ty
        radius := (CircleFit data s V eigval eigvec).radius } := by
  have hne : (n : ℝ) ≠ 0 := Nat.cast_ne_zero.mpr (by omega)
  have hcx : centroidX (fun j => ((data j).1 + tx, (data j).2 + ty)) =
      centroidX data + tx := by
    unfold centroidX
    calc ∑ j : Fin n, ((data j).1 + tx) / n
        = ∑ j : Fin n, ((data j).1 / n + tx / n) :=
          Finset.sum_congr rfl (fun j _ => by ring)
      _ = (∑ j : Fin n, (data j).1 / n) + (n : ℝ) * (tx / n) := by
          rw [Finset.sum_add_distrib, Finset.sum_const, Finset.card_univ,
            Fintype.card_fin, nsmul_eq_mul]
      _ = (∑ j : Fin n, (data j).1 / n) + tx := by
          rw [mul_div_cancel₀ tx hne]
  have hcy : centroidY (fun j => ((data j).1 + tx, (data j).2 + ty)) =
      centroidY data + ty := by
    unfold centroidY
    calc ∑ j : Fin n, ((data j).2 + ty) / n
        = ∑ j : Fin n, ((data j).2 / n + ty / n) :=
          Finset.sum_congr rfl (fun j _ => by ring)
      _ = (∑ j : Fin n, (data j).2 / n) + (n : ℝ) * (ty / n) := by
          rw [Finset.sum_add_distrib, Finset.sum_const, Finset.card_univ,
            Fintype.card_fin, nsmul_eq_mul]
      _ = (∑ j : Fin n, (data j).2 / n) + ty := by
          rw [mul_div_cancel₀ ty hne]
  have hcent : centered (fun j => ((data j).1 + tx, (data j).2 + ty)) =
      centered data := by
    funext j
    simp only [centered, hcx, hcy]
    rw [Prod.mk.injEq]
    constructor <;> ring
  have hZ : Zmat (fun j => ((data j).1 + tx, (data j).2 + ty)) = Zmat data := by
    unfold Zmat
    rw [hcent]
  refine ⟨hZ, ?_⟩
  simp only [CircleFit, hcx, hcy]
  congr 1 <;> ring

/-- Witness for C9: `data8` translated by `(1, 2)`, with a fixed oracle. -/
theorem circleFit_translation_equivariant_witness :
    Zmat (fun j => ((data8 j).1 + 1, (data8 j).2 + 2)) = Zmat data8 ∧
    CircleFit (fun j => ((data8 j).1 + 1, (data8 j).2 + 2))
        (fun _ => 0) 1 (fun _ => 0) 1 =
      { x := (CircleFit data8 (fun _ => 0) 1 (fun _ => 0) 1).x + 1
        y := (CircleFit data8 (fun _ => 0) 1 (fun _ => 0) 1).y + 2
        radius := (CircleFit data8 (fun _ => 0) 1 (fun _ => 0) 1).radius } :=
  circleFit_translation_equivariant data8 1 2 (fun _ => 0) 1 (fun _ => 0) 1
    (by omega)

/-- C9 counterexample: the claim covers every cluster of at least 3 points,
but for a 3-point cluster — here `dataC9`, translated by `(1, 2)` — the
source never fits a centre at all: `arma::svd` of the 3×4 data matrix fills
the singular value vector with only `sCount 3 4 = 3` entries, so the
bounds-checked access `s(3)` at line 66 aborts, for the cluster and for its
translate alike, and there is no fitted centre that the translation could
move. -/
theorem circleFit_translation_three_counterexample :
    dataC9 0 = (0, 0) ∧ dataC9 1 = (1, 0) ∧ dataC9 2 = (0, 1) ∧
    (fun j : Fin 3 => ((dataC9 j).1 + 1, (dataC9 j).2 + 2)) 0 = (1, 2) ∧
    sCount 3 4 = 3 ∧ ¬(3 < sCount 3 4) := by
  refine ⟨?_, ?_, ?_, ?_, rfl, by norm_num [sCount]⟩ <;> norm_num [dataC9]

/-- Row `j` of `Z ·ᵥ w`, written out. -/
theorem Zmat_mulVec_apply {n : ℕ} (data : Fin n → ℝ × ℝ) (w : Fin 4 → ℝ)
    (j : Fin n) :
    (Zmat data *ᵥ w) j =
      ((centered data j).1 ^ 2 + (centered data j).2 ^ 2) * w 0 +
        (centered data j).1 * w 1 + (centered data j).2 * w 2 + w 3 := by
  simp [Matrix.mulVec, dotProduct, Fin.sum_univ_four, Zmat]

/-- Points on the circle of centre `(cx, cy)` and radius `r` satisfy the
centered circle equation. -/
theorem centered_circle {n : ℕ} (data : Fin n → ℝ × ℝ) (cx cy r : ℝ)
    (hcirc : ∀ j, ((data j).1 - cx) ^ 2 + ((data j).2 - cy) ^ 2 = r ^ 2)
    (j : Fin n) :
    ((centered data j).1 - (cx - centroidX data)) ^ 2 +
      ((centered data j).2 - (cy - centroidY data)) ^ 2 = r ^ 2 := by
  have := hcirc j
  simp only [centered]
  linear_combination this

/-- The circle's parameter vector lies in the null space of the data
matrix. -/
theorem Zmat_mulVec_circleVec {n : ℕ} (data : Fin n → ℝ × ℝ) (cx cy r : ℝ)
    (hcirc : ∀ j, ((data j).1 - cx) ^ 2 + ((data j).2 - cy) ^ 2 = r ^ 2) :
    Zmat data *ᵥ circleVec (cx - centroidX data) (cy - centroidY data) r = 0 := by
  funext j
  rw [Zmat_mulVec_apply]
  have h := centered_circle data cx cy r hcirc j
  simp only [circleVec, Matrix.cons_val_zero, Matrix.cons_val_one,
    Matrix.head_cons, Pi.zero_apply]
  norm_num
  linear_combination h

/-- Three pairwise distinct points cannot lie on one genuine line and one
circle of positive radius at the same time. -/
theorem line_circle_three (C1 C2 C3 a b r x0 y0 x1 y1 x2 y2 : ℝ)
    (hD : C1 ^ 2 + C2 ^ 2 ≠ 0)
    (hl0 : C1 * x0 + C2 * y0 + C3 = 0) (hl1 : C1 * x1 + C2 * y1 + C3 = 0)
    (hl2 : C1 * x2 + C2 * y2 + C3 = 0)
    (hc0 : (x0 - a) ^ 2 + (y0 - b) ^ 2 = r ^ 2)
    (hc1 : (x1 - a) ^ 2 + (y1 - b) ^ 2 = r ^ 2)
    (hc2 : (x2 - a) ^ 2 + (y2 - b) ^ 2 = r ^ 2)
    (h01 : (x0, y0) ≠ (x1, y1)) (h02 : (x0, y0) ≠ (x2, y2))
    (h12 : (x1, y1) ≠ (x2, y2)) : False := by
  have hx0 : (C1 ^ 2 + C2 ^ 2) * x0 = C2 * (C2 * x0 - C1 * y0) - C1 * C3 := by
    linear_combination C1 * hl0
  have hx1 : (C1 ^ 2 + C2 ^ 2) * x1 = C2 * (C2 * x1 - C1 * y1) - C1 * C3 := by
    linear_combination C1 * hl1
  have hx2 : (C1 ^ 2 + C2 ^ 2) * x2 = C2 * (C2 * x2 - C1 * y2) - C1 * C3 := by
    linear_combination C1 * hl2
  have hy0 : (C1 ^ 2 + C2 ^ 2) * y0 = -(C1 * (C2 * x0 - C1 * y0)) - C2 * C3 := by
    linear_combination C2 * hl0
  have hy1 : (C1 ^ 2 + C2 ^ 2) * y1 = -(C1 * (C2 * x1 - C1 * y1)) - C2 * C3 := by
    linear_combination C2 * hl1
  have hy2 : (C1 ^ 2 + C2 ^ 2) * y2 = -(C1 * (C2 * x2 - C1 * y2)) - C2 * C3 := by
    linear_combination C2 * hl2
  have tne : ∀ xi yi xk yk : ℝ,
      (C1 ^ 2 + C2 ^ 2) * xi = C2 * (C2 * xi - C1 * yi) - C1 * C3 →
      (C1 ^ 2 + C2 ^ 2) * xk = C2 * (C2 * xk - C1 * yk) - C1 * C3 →
      (C1 ^ 2 + C2 ^ 2) * yi = -(C1 * (C2 * xi - C1 * yi)) - C2 * C3 →
      (C1 ^ 2 + C2 ^ 2) * yk = -(C1 * (C2 * xk - C1 * yk)) - C2 * C3 →
      C2 * xi - C1 * yi = C2 * xk - C1 * yk → (xi, yi) = (xk, yk) := by
    intro xi yi xk yk hxi hxk hyi hyk ht
    have hxx : (C1 ^ 2 + C2 ^ 2) * xi = (C1 ^ 2 + C2 ^ 2) * xk := by
      rw [hxi, hxk, ht]
    have hyy : (C1 ^ 2 + C2 ^ 2) * yi = (C1 ^ 2 + C2 ^ 2) * yk := by
      rw [hyi, hyk, ht]
    have e1 := mul_left_cancel₀ hD hxx
    have e2 := mul_left_cancel₀ hD hyy
    rw [e1, e2]
  have hB01 : ((C2 * x0 - C1 * y0) - (C2 * x1 - C1 * y1)) *
      (C2 * (x0 + x1 - 2 * a) - C1 * (y0 + y1 - 2 * b)) = 0 := by
    linear_combination (C1 ^ 2 + C2 ^ 2) * (hc0 - hc1) -
      ((x0 + x1 - 2 * a) * C1 + (y0 + y1 - 2 * b) * C2) * (hl0 - hl1)
  have hB12 : ((C2 * x1 - C1 * y1) - (C2 * x2 - C1 * y2)) *
      (C2 * (x1 + x2 - 2 * a) - C1 * (y1 + y2 - 2 * b)) = 0 := by
    linear_combination (C1 ^ 2 + C2 ^ 2) * (hc1 - hc2) -
      ((x1 + x2 - 2 * a) * C1 + (y1 + y2 - 2 * b) * C2) * (hl1 - hl2)
  have ht01 : C2 * x0 - C1 * y0 ≠ C2 * x1 - C1 * y1 := fun h =>
    h01 (tne x0 y0 x1 y1 hx0 hx1 hy0 hy1 h)
  have ht12 : C2 * x1 - C1 * y1 ≠ C2 * x2 - C1 * y2 := fun h =>
    h12 (tne x1 y1 x2 y2 hx1 hx2 hy1 hy2 h)
  have hbr1 : C2 * (x0 + x1 - 2 * a) - C1 * (y0 + y1 - 2 * b) = 0 := by
    rcases mul_eq_zero.mp hB01 with h | h
    · exact absurd (by linarith : C2 * x0 - C1 * y0 = C2 * x1 - C1 * y1) ht01
    · exact h
  have hbr2 : C2 * (x1 + x2 - 2 * a) - C1 * (y1 + y2 - 2 * b) = 0 := by
    rcases mul_eq_zero.mp hB12 with h | h
    · exact absurd (by linarith : C2 * x1 - C1 * y1 = C2 * x2 - C1 * y2) ht12
    · exact h
  have ht02 : C2 * x0 - C1 * y0 = C2 * x2 - C1 * y2 := by linarith
  exact h02 (tne x0 y0 x2 y2 hx0 hx2 hy0 hy2 ht02)

/-- For at least four pairwise distinct points on a circle of positive
radius, the null space of the data matrix is spanned by the circle's
parameter vector: any null vector is its first coordinate times that
vector. -/
theorem circle_null_vector {n : ℕ} (data : Fin n → ℝ × ℝ) (cx cy r : ℝ)
    (hn : 4 ≤ n) (hinj : Function.Injective data)
    (hcirc : ∀ j, ((data j).1 - cx) ^ 2 + ((data j).2 - cy) ^ 2 = r ^ 2)
    (B : Fin 4 → ℝ) (hB : Zmat data *ᵥ B = 0) :
    B = B 0 • circleVec (cx - centroidX data) (cy - centroidY data) r := by
  have hZv := Zmat_mulVec_circleVec data cx cy r hcirc
  set a := cx - centroidX data with ha
  set b := cy - centroidY data with hb
  have hv0 : circleVec a b r 0 = 1 := rfl
  have hv1 : circleVec a b r 1 = -2 * a := rfl
  have hv2 : circleVec a b r 2 = -2 * b := rfl
  have hv3 : circleVec a b r 3 = a ^ 2 + b ^ 2 - r ^ 2 := rfl
  have hBrow : ∀ j : Fin n,
      ((centered data j).1 ^ 2 + (centered data j).2 ^ 2) * B 0 +
        (centered data j).1 * B 1 + (centered data j).2 * B 2 + B 3 = 0 := by
    intro j
    have h := congrFun hB j
    rw [Zmat_mulVec_apply] at h
    simpa using h
  have hvrow : ∀ j : Fin n,
      ((centered data j).1 ^ 2 + (centered data j).2 ^ 2) * 1 +
        (centered data j).1 * (-2 * a) + (centered data j).2 * (-2 * b) +
        (a ^ 2 + b ^ 2 - r ^ 2) = 0 := by
    intro j
    have h := congrFun hZv j
    rw [Zmat_mulVec_apply, hv0, hv1, hv2, hv3] at h
    simpa using h
  have hline : ∀ j : Fin n,
      (B 1 + 2 * a * B 0) * (centered data j).1 +
        (B 2 + 2 * b * B 0) * (centered data j).2 +
        (B 3 - (a ^ 2 + b ^ 2 - r ^ 2) * B 0) = 0 := by
    intro j
    linear_combination hBrow j - B 0 * hvrow j
  by_cases h12 : B 1 + 2 * a * B 0 = 0 ∧ B 2 + 2 * b * B 0 = 0
  · have h3 : B 3 - (a ^ 2 + b ^ 2 - r ^ 2) * B 0 = 0 := by
      have h := hline ⟨0, by omega⟩
      rw [h12.1, h12.2] at h
      simpa using h
    funext i
    rw [Pi.smul_apply, smul_eq_mul]
    fin_cases i
    · show B 0 = B 0 * circleVec a b r 0
      rw [hv0]; ring
    · show B 1 = B 0 * circleVec a b r 1
      rw [hv1]; linear_combination h12.1
    · show B 2 = B 0 * circleVec a b r 2
      rw [hv2]; linear_combination h12.2
    · show B 3 = B 0 * circleVec a b r 3
      rw [hv3]; linear_combination h3
  · exfalso
    have hD : (B 1 + 2 * a * B 0) ^ 2 + (B 2 + 2 * b * B 0) ^ 2 ≠ 0 := by
      intro h0
      have hsq1 := sq_nonneg (B 1 + 2 * a * B 0)
      have hsq2 := sq_nonneg (B 2 + 2 * b * B 0)
      have he1 : B 1 + 2 * a * B 0 = 0 := by nlinarith
      have he2 : B 2 + 2 * b * B 0 = 0 := by nlinarith
      exact h12 ⟨he1, he2⟩
    have h0n : (0 : ℕ) < n := by omega
    have h1n : (1 : ℕ) < n := by omega
    have h2n : (2 : ℕ) < n := by omega
    have hnec : ∀ (j k : Fin n), j ≠ k →
        centered data j ≠ centered data k := by
      intro j k hjk h
      have hx := congrArg Prod.fst h
      have hy := congrArg Prod.snd h
      simp only [centered] at hx hy
      have hdx : (data j).1 = (data k).1 := by linarith
      have hdy : (data j).2 = (data k).2 := by linarith
      exact hjk (hinj (Prod.ext hdx hdy))
    have hne01 : centered data ⟨0, h0n⟩ ≠ centered data ⟨1, h1n⟩ :=
      hnec _ _ (by intro h; have := congrArg Fin.val h; norm_num at this)
    have hne02 : centered data ⟨0, h0n⟩ ≠ centered data ⟨2, h2n⟩ :=
      hnec _ _ (by intro h; have := congrArg Fin.val h; norm_num at this)
    have hne12 : centered data ⟨1, h1n⟩ ≠ centered data ⟨2, h2n⟩ :=
      hnec _ _ (by intro h; have := congrArg Fin.val h; norm_num at this)
    exact line_circle_three (B 1 + 2 * a * B 0) (B 2 + 2 * b * B 0)
      (B 3 - (a ^ 2 + b ^ 2 - r ^ 2) * B 0) a b r
      (centered data ⟨0, h0n⟩).1 (centered data ⟨0, h0n⟩).2
      (centered data ⟨1, h1n⟩).1 (centered data ⟨1, h1n⟩).2
      (centered data ⟨2, h2n⟩).1 (centered data ⟨2, h2n⟩).2
      hD (hline _) (hline _) (hline _)
      (centered_circle data cx cy r hcirc _)
      (centered_circle data cx cy r hcirc _)
      (centered_circle data cx cy r hcirc _)
      hne01 hne02 hne12

/-- If the rectangular diagonal matrix annihilates a vector, each singular
value times the matching coordinate vanishes. -/
theorem sigma_mulVec_eq_zero {n : ℕ} (hn : 4 ≤ n) (s : Fin 4 → ℝ)
    (w : Fin 4 → ℝ) (h : sigmaMat n s *ᵥ w = 0) :
    ∀ j : Fin 4, s j * w j = 0 := by
  intro j
  have hj : (j : ℕ) < n := lt_of_lt_of_le j.isLt hn
  have hr := congrFun h ⟨(j : ℕ), hj⟩
  have hexp : ∀ k : Fin 4,
      sigmaMat n s ⟨(j : ℕ), hj⟩ k = if j = k then s k else 0 := by
    intro k
    simp only [sigmaMat, Matrix.of_apply]
    by_cases hk : j = k
    · subst hk
      rw [if_pos rfl, if_pos rfl]
    · rw [if_neg (fun hv => hk (Fin.ext hv)), if_neg hk]
  rw [show (sigmaMat n s *ᵥ w) ⟨(j : ℕ), hj⟩ =
      ∑ k : Fin 4, sigmaMat n s ⟨(j : ℕ), hj⟩ k * w k from rfl] at hr
  simp only [hexp, ite_mul, zero_mul] at hr
  rw [Finset.sum_ite_eq] at hr
  simpa using hr

/-- C8 amended: for every cluster of at least 4 pairwise distinct points
lying exactly on a circle of centre `(cx, cy)` and radius `r > 0`, and every
valid singular value decomposition of the data matrix, `CircleFit` recovers
the centre and radius exactly (in exact arithmetic the rank-deficient data
matrix forces `s(3) = 0`, so the degenerate branch is always the one taken).
For a 3-point cluster the claim fails: `svd` yields only `min(3,4) = 3`
singular values and the access `s(3)` is out of bounds (see the
counterexample). -/
theorem circleFit_exact_recovery {n : ℕ} (data : Fin n → ℝ × ℝ) (cx cy r : ℝ)
    (U : Matrix (Fin n) (Fin n) ℝ) (s : Fin 4 → ℝ)
    (V : Matrix (Fin 4) (Fin 4) ℝ) (eigval : Fin 4 → ℝ)
    (eigvec : Matrix (Fin 4) (Fin 4) ℝ)
    (hn : 4 ≤ n) (hinj : Function.Injective data)
    (hcirc : ∀ j, ((data j).1 - cx) ^ 2 + ((data j).2 - cy) ^ 2 = r ^ 2)
    (hr : 0 < r) (hsvd : IsSVD (Zmat data) U s V) :
    CircleFit data s V eigval eigvec = { x := cx, y := cy, radius := r } := by
  obtain ⟨hU, hVtV, hVVt, hsort, hpos, hfact⟩ := hsvd
  have hZv := Zmat_mulVec_circleVec data cx cy r hcirc
  set a := cx - centroidX data with ha
  set b := cy - centroidY data with hb
  have hv0 : circleVec a b r 0 = 1 := rfl
  have hv1 : circleVec a b r 1 = -2 * a := rfl
  have hv2 : circleVec a b r 2 = -2 * b := rfl
  have hv3 : circleVec a b r 3 = a ^ 2 + b ^ 2 - r ^ 2 := rfl
  -- the singular value s 3 vanishes
  have hUZ : sigmaMat n s *ᵥ (Vᵀ *ᵥ circleVec a b r) = 0 := by
    have h1 : U *ᵥ (sigmaMat n s *ᵥ (Vᵀ *ᵥ circleVec a b r)) = 0 := by
      rw [Matrix.mulVec_mulVec, Matrix.mulVec_mulVec, ← hfact]
      exact hZv
    have h2 := congrArg (fun y => Uᵀ *ᵥ y) h1
    simpa [Matrix.mulVec_mulVec, ← Matrix.mul_assoc, hU] using h2
  have hsw := sigma_mulVec_eq_zero hn s (Vᵀ *ᵥ circleVec a b r) hUZ
  have hwne : Vᵀ *ᵥ circleVec a b r ≠ 0 := by
    intro h0
    have hvv : V *ᵥ (Vᵀ *ᵥ circleVec a b r) = circleVec a b r := by
      rw [Matrix.mulVec_mulVec, hVVt, Matrix.one_mulVec]
    rw [h0, Matrix.mulVec_zero] at hvv
    have h1 := congrFun hvv 0
    rw [hv0] at h1
    simp at h1
  have hs3 : s 3 = 0 := by
    obtain ⟨j, hj⟩ := Function.ne_iff.mp hwne
    have hsj : s j = 0 := by
      rcases mul_eq_zero.mp (hsw j) with h | h
      · exact h
      · exact absurd h (by simpa using hj)
    have hle : s 3 ≤ s j := hsort j 3 (by
      rw [Fin.le_def]
      omega)
    have hge := hpos 3
    linarith
  -- the degenerate branch is taken
  have hA : circleA s V eigval eigvec = fun i => V i 3 := by
    unfold circleA
    rw [if_pos]
    rw [hs3]
    norm_num
  -- column 3 of V is in the null space of Z
  have hZA : Zmat data *ᵥ (fun i => V i 3) = 0 := by
    have hcol : (fun i => V i 3) = V *ᵥ Pi.single (3 : Fin 4) 1 := by
      rw [Matrix.mulVec_single_one]
      funext i
      rw [Matrix.transpose_apply]
    have hsig : sigmaMat n s *ᵥ Pi.single (3 : Fin 4) 1 = 0 := by
      rw [Matrix.mulVec_single_one]
      funext i
      rw [Matrix.transpose_apply]
      simp only [sigmaMat, Matrix.of_apply, Pi.zero_apply, hs3, ite_self]
    rw [hcol, Matrix.mulVec_mulVec, hfact,
      Matrix.mul_assoc (U * sigmaMat n s) Vᵀ V, hVtV, Matrix.mul_one,
      ← Matrix.mulVec_mulVec, hsig, Matrix.mulVec_zero]
  -- column 3 of V is a unit vector, hence nonzero, hence a nonzero multiple
  -- of the circle's parameter vector
  have hAnz : (fun i => V i 3) ≠ (0 : Fin 4 → ℝ) := by
    intro h0
    have h33 := congrFun (congrFun hVtV 3) 3
    simp only [Matrix.mul_apply, Matrix.transpose_apply, Fin.sum_univ_four,
      Matrix.one_apply_eq] at h33
    have hz : ∀ k : Fin 4, V k 3 = 0 := fun k => congrFun h0 k
    rw [hz 0, hz 1, hz 2, hz 3] at h33
    norm_num at h33
  have hAv := circle_null_vector data cx cy r hn hinj hcirc _ hZA
  have hcomp : ∀ i, V i 3 = V 0 3 * circleVec a b r i := by
    intro i
    have hi := congrFun hAv i
    simpa [Pi.smul_apply, smul_eq_mul] using hi
  have hc0 : V 0 3 ≠ 0 := by
    intro h0
    apply hAnz
    funext i
    have hi := hcomp i
    rw [h0, zero_mul] at hi
    simpa using hi
  -- evaluate the marker
  have hA0 : circleA s V eigval eigvec 0 = V 0 3 := by rw [hA]
  have hA1 : circleA s V eigval eigvec 1 = V 1 3 := by rw [hA]
  have hA2 : circleA s V eigval eigvec 2 = V 2 3 := by rw [hA]
  have hA3 : circleA s V eigval eigvec 3 = V 3 3 := by rw [hA]
  have hx : -(circleA s V eigval eigvec 1) / (2 * circleA s V eigval eigvec 0) +
      centroidX data = cx := by
    rw [hA1, hA0, hcomp 1, hv1]
    field_simp
    rw [ha]
    ring
  have hy : -(circleA s V eigval eigvec 2) / (2 * circleA s V eigval eigvec 0) +
      centroidY data = cy := by
    rw [hA2, hA0, hcomp 2, hv2]
    field_simp
    rw [hb]
    ring
  have hR2 : (circleA s V eigval eigvec 1 ^ 2 + circleA s V eigval eigvec 2 ^ 2 -
      4 * circleA s V eigval eigvec 0 * circleA s V eigval eigvec 3) /
      (4 * circleA s V eigval eigvec 0 ^ 2) = r ^ 2 := by
    rw [hA1, hA2, hA0, hA3, hcomp 1, hcomp 2, hcomp 3, hv1, hv2, hv3]
    field_simp
    ring
  show (⟨_, _, _⟩ : Marker) = _
  rw [Marker.mk.injEq]
  exact ⟨hx, hy, by rw [hR2]; exact Real.sqrt_sq hr.le⟩

/-- The four sample points are pairwise distinct. -/
theorem data8_injective : Function.Injective data8 := by
  intro i j h
  fin_cases i <;> fin_cases j <;> simp_all [data8, Prod.ext_iff]

/-- The four sample points lie on the circle of centre `(5, 7)`, radius 1. -/
theorem data8_on_circle :
    ∀ j : Fin 4, ((data8 j).1 - 5) ^ 2 + ((data8 j).2 - 7) ^ 2 = 1 ^ 2 := by
  intro j
  fin_cases j <;> norm_num [data8]

/-- The data matrix of the sample points, computed. -/
theorem Zmat_data8_eq :
    Zmat data8 = !![1, 1, 0, 1; 1, -1, 0, 1; 1, 0, 1, 1; 1, 0, -1, 1] := by
  have hcx : centroidX data8 = 5 := by
    simp [centroidX, data8, Fin.sum_univ_four]
    norm_num
  have hcy : centroidY data8 = 7 := by
    simp [centroidY, data8, Fin.sum_univ_four]
    norm_num
  ext i j
  fin_cases i <;> fin_cases j <;>
    simp [Zmat, centered, hcx, hcy] <;>
    norm_num [data8, Matrix.vecHead, Matrix.vecTail]

/-- Left factor of the sample decomposition is orthogonal. -/
theorem U8_orthogonal : U8ᵀ * U8 = 1 := by
  have h2 : Real.sqrt 2 ^ 2 = 2 := Real.sq_sqrt (by norm_num)
  ext i j
  fin_cases i <;> fin_cases j <;>
    · norm_num [Matrix.mul_apply, Matrix.transpose_apply, Fin.sum_univ_four, U8,
        Matrix.one_apply, Matrix.vecHead, Matrix.vecTail, Fin.ext_iff,
        show ((0 : Fin 4) : ℕ) = 0 from rfl, show ((1 : Fin 4) : ℕ) = 1 from rfl,
        show ((2 : Fin 4) : ℕ) = 2 from rfl, show ((3 : Fin 4) : ℕ) = 3 from rfl]
      try nlinarith [h2]

/-- Right factor of the sample decomposition is orthogonal (left product). -/
theorem V8_orthogonal_left : V8ᵀ * V8 = 1 := by
  have h2 : Real.sqrt 2 ^ 2 = 2 := Real.sq_sqrt (by norm_num)
  ext i j
  fin_cases i <;> fin_cases j <;>
    · norm_num [Matrix.mul_apply, Matrix.transpose_apply, Fin.sum_univ_four, V8,
        Matrix.one_apply, Matrix.vecHead, Matrix.vecTail, Fin.ext_iff,
        show ((0 : Fin 4) : ℕ) = 0 from rfl, show ((1 : Fin 4) : ℕ) = 1 from rfl,
        show ((2 : Fin 4) : ℕ) = 2 from rfl, show ((3 : Fin 4) : ℕ) = 3 from rfl]
      try nlinarith [h2]

/-- Right factor of the sample decomposition is orthogonal (right product). -/
theorem V8_orthogonal_right : V8 * V8ᵀ = 1 := by
  have h2 : Real.sqrt 2 ^ 2 = 2 := Real.sq_sqrt (by norm_num)
  ext i j
  fin_cases i <;> fin_cases j <;>
    · norm_num [Matrix.mul_apply, Matrix.transpose_apply, Fin.sum_univ_four, V8,
        Matrix.one_apply, Matrix.vecHead, Matrix.vecTail, Fin.ext_iff,
        show ((0 : Fin 4) : ℕ) = 0 from rfl, show ((1 : Fin 4) : ℕ) = 1 from rfl,
        show ((2 : Fin 4) : ℕ) = 2 from rfl, show ((3 : Fin 4) : ℕ) = 3 from rfl]
      try nlinarith [h2]

set_option maxHeartbeats 2000000 in
/-- The sample decomposition factors the data matrix. -/
theorem Zmat_data8_factors : Zmat data8 = U8 * sigmaMat 4 s8 * V8ᵀ := by
  have h2 : Real.sqrt 2 ^ 2 = 2 := Real.sq_sqrt (by norm_num)
  rw [Zmat_data8_eq]
  ext i j
  fin_cases i <;> fin_cases j <;>
    · norm_num [Matrix.mul_apply, Matrix.transpose_apply, Fin.sum_univ_four, U8,
        V8, s8, sigmaMat, Matrix.vecHead, Matrix.vecTail,
        show ((0 : Fin 4) : ℕ) = 0 from rfl, show ((1 : Fin 4) : ℕ) = 1 from rfl,
        show ((2 : Fin 4) : ℕ) = 2 from rfl, show ((3 : Fin 4) : ℕ) = 3 from rfl]
      try nlinarith [h2]

/-- The sample singular values are in decreasing order. -/
theorem s8_sorted : ∀ i j : Fin 4, i ≤ j → s8 j ≤ s8 i := by
  have h0 : (0 : ℝ) ≤ Real.sqrt 2 := Real.sqrt_nonneg 2
  intro i j hij
  fin_cases i <;> fin_cases j <;> simp_all [s8]

/-- The sample singular values are nonnegative. -/
theorem s8_nonneg : ∀ i : Fin 4, 0 ≤ s8 i := by
  have h0 : (0 : ℝ) ≤ Real.sqrt 2 := Real.sqrt_nonneg 2
  intro i
  fin_cases i <;> simp [s8]

/-- `(U8, s8, V8)` is a valid singular value decomposition of the sample data
matrix. -/
theorem data8_svd : IsSVD (Zmat data8) U8 s8 V8 :=
  ⟨U8_orthogonal, V8_orthogonal_left, V8_orthogonal_right, s8_sorted,
    s8_nonneg, Zmat_data8_factors⟩

/-- Witness for the amended C8 statement: the four points `data8` on the
circle of centre `(5, 7)` and radius 1, with the spelled-out singular value
decomposition of their data matrix; `CircleFit` returns exactly that centre
and radius. -/
theorem circleFit_exact_recovery_witness :
    CircleFit data8 s8 V8 (fun _ => 0) 1 = { x := 5, y := 7, radius := 1 } :=
  circleFit_exact_recovery data8 5 7 1 U8 s8 V8 (fun _ => 0) 1
    (by omega) data8_injective data8_on_circle (by norm_num) data8_svd

/-- C8 counterexample: for `N = 3` — allowed by the claim — the points of
`dataC8three` lie exactly on the unit circle about the origin, yet
`arma::svd` fills the singular value vector with only `sCount 3 4 = 3`
entries, so the access `s(3)` on line 66 of the source is out of bounds: the
bounds-checked call aborts and no circle at all is produced, rather than the
claimed recovery within 1e-6. -/
theorem circleFit_three_point_counterexample :
    ((dataC8three 0).1 - 0) ^ 2 + ((dataC8three 0).2 - 0) ^ 2 = 1 ^ 2 ∧
    ((dataC8three 1).1 - 0) ^ 2 + ((dataC8three 1).2 - 0) ^ 2 = 1 ^ 2 ∧
    ((dataC8three 2).1 - 0) ^ 2 + ((dataC8three 2).2 - 0) ^ 2 = 1 ^ 2 ∧
    sCount 3 4 = 3 ∧ ¬(3 < sCount 3 4) := by
  refine ⟨?_, ?_, ?_, rfl, by norm_num [sCount]⟩ <;> norm_num [dataC8three]
